import Mathlib

/-!
Verification development for the `sac` Brainfuck interpreter
(`src/interpreter.rs`).  The Rust source is shallowly embedded:

* machine integers are modelled as `Nat` with explicit range checks where
  Rust arithmetic can overflow; Rust's integer overflow semantics are
  modelled as checked (an overflow traps, which is Rust's behaviour under
  `debug_assertions`, and is how the program's own documentation treats
  overflow): a trap surfaces as a `Fault` / compile error value;
* the `HashMap<usize, usize>` jump map is modelled as a function
  `Nat -> Option Nat` with `jmInsert` mirroring `HashMap::insert`;
* the fixed `[u8; RAM_SIZE]` tape is modelled as a total function
  `Nat -> Nat` together with the explicit bound `RAM_SIZE` checked at
  every indexing site (Rust panics on out-of-bounds indexing);
* `stdin`/`stdout` are modelled as lists of byte values carried in the
  machine state; a failing `read_exact` (exhausted input) is a fault;
* `panic!`/`unwrap` failures are modelled as `Fault` or `Option`/`Except`
  error values;
* the `while` loops of `interpret`, `load_program_from_file` and the
  lexer are modelled by structural recursion (on an explicit fuel where
  the loop is not structurally decreasing).
-/

namespace Sac

/-- Tape size: `const RAM_SIZE: usize = 100_000;`. -/
def RAM_SIZE : Nat := 100000

/-- Largest value of a `usize` (64-bit). -/
def USIZE_MAX : Nat := 2 ^ 64 - 1

/-- Largest value of a `u8`. -/
def U8_MAX : Nat := 255

/-! ### Lexer -/

/-- The lexer state: `position_in_code` cursor over the `content`
character buffer (`struct Lexer`). -/
structure Lexer where
  position_in_code : Nat
  content : List Char
deriving DecidableEq

/-- `Lexer::new()`. -/
def Lexer.new : Lexer := { position_in_code := 0, content := [] }

/-- `Lexer::fill`: pushes every character of the code onto `content`. -/
def Lexer.fill (lx : Lexer) (code : List Char) : Lexer :=
  { lx with content := lx.content ++ code }

/-- The `"><+-.,[]"` character set of `is_valid_brainfuck_instruction`. -/
def validChars : List Char := ['>', '<', '+', '-', '.', ',', '[', ']']

/-- `Lexer::is_valid_brainfuck_instruction`: membership in `"><+-.,[]"`. -/
def is_valid_brainfuck_instruction (inst : Char) : Bool :=
  validChars.contains inst

/-- Core of `Lexer::next`: the skip-invalid `while` loop followed by the
read.  It walks the portion of the buffer starting at `pos` (passed as
the explicit list `l = content.drop pos`), advancing the cursor past
characters that are not Brainfuck instructions; at the end of the buffer
it returns the `'@'` EOF sentinel and leaves the cursor where the skip
loop stopped, otherwise it returns the character and the advanced
cursor. -/
def nextAux : List Char → Nat → Char × Nat
  | [], pos => ('@', pos)
  | c :: rest, pos =>
    if is_valid_brainfuck_instruction c then (c, pos + 1)
    else nextAux rest (pos + 1)

/-- `Lexer::next`, state-passing: returns the produced character and the
updated lexer. -/
def Lexer.next (lx : Lexer) : Char × Lexer :=
  let r := nextAux (lx.content.drop lx.position_in_code) lx.position_in_code
  (r.1, { position_in_code := r.2, content := lx.content })

/-- Result of the `i`-th successive call to `Lexer::next` (0-based). -/
def Lexer.tokenAt (lx : Lexer) : Nat → Char
  | 0 => lx.next.1
  | i + 1 => Lexer.tokenAt lx.next.2 i

/-! ### Intermediate representation -/

/-- `enum IRInstructionKind`. -/
inductive IRInstructionKind where
  | IncrementPointer
  | DecrementPointer
  | IncrementByte
  | DecrementByte
  | PrintByteAsChar
  | ReadInputToByte
  | JumpIfZero
  | JumpIfNotZero
deriving DecidableEq

/-- `struct IRInstruction { kind, operand: Option<u8> }`; the operand is
a `u8` repeat count, kept as a `Nat` (the compiler only ever stores
values in `1..=255`). -/
structure IRInstruction where
  kind : IRInstructionKind
  operand : Option Nat
deriving DecidableEq

/-- The four run-length-collapsible kinds (`>` `<` `+` `-`). -/
def collapsibleKind : IRInstructionKind → Bool
  | .IncrementPointer => true
  | .DecrementPointer => true
  | .IncrementByte => true
  | .DecrementByte => true
  | _ => false

/-! ### Compiler (`Interpreter::load_program_from_file`, file IO elided) -/

/-- Outcomes of compilation that are not a produced program:
`fuelOut` stands for non-termination of the modelled `while` loops
(never reached with enough fuel), `streakOverflow` is the trap of the
unchecked `streak += 1` on a `u8` holding 255, and `unreachableArm`
marks entry into the `_ => continue` match arm (in the source that arm
re-tests the unchanged symbol forever, so reaching it means the compiler
never terminates; the marker lets us prove it is never reached). -/
inductive CompileErr where
  | fuelOut
  | streakOverflow
  | unreachableArm
deriving DecidableEq

/-- The inner run-length loop
`while c == s { streak += 1; s = self.lexer.next(); }`,
with the checked-overflow trap of `streak += 1` at 255.  Returns the
final streak, the symbol that broke the run, and the lexer. -/
def collapseGo : Nat → Lexer → Char → Nat → Char →
    Except CompileErr (Nat × Char × Lexer)
  | 0, _, _, _, _ => .error .fuelOut
  | fuel + 1, lx, c, streak, s =>
    if c = s then
      if streak = U8_MAX then .error .streakOverflow
      else
        let r := lx.next
        collapseGo fuel r.2 c (streak + 1) r.1
    else .ok (streak, s, lx)

/-- The compiler loop `while c != '@' { match c { ... } ; push }` of
`load_program_from_file`.  `acc` is the program built so far. -/
def compileGo : Nat → Lexer → Char → List IRInstruction →
    Except CompileErr (List IRInstruction)
  | 0, _, _, _ => .error .fuelOut
  | fuel + 1, lx, c, acc =>
    if c = '@' then .ok acc
    else if c = '>' ∨ c = '<' ∨ c = '+' ∨ c = '-' then
      let inst_kind :=
        if c = '>' then IRInstructionKind.IncrementPointer
        else if c = '<' then IRInstructionKind.DecrementPointer
        else if c = '+' then IRInstructionKind.IncrementByte
        else IRInstructionKind.DecrementByte
      let r := lx.next
      match collapseGo fuel r.2 c 1 r.1 with
      | .error e => .error e
      | .ok (streak, s, lx2) =>
        compileGo fuel lx2 s (acc ++ [{ kind := inst_kind, operand := some streak }])
    else if c = '.' ∨ c = ',' ∨ c = '[' ∨ c = ']' then
      let inst_kind :=
        if c = '.' then IRInstructionKind.PrintByteAsChar
        else if c = ',' then IRInstructionKind.ReadInputToByte
        else if c = '[' then IRInstructionKind.JumpIfZero
        else IRInstructionKind.JumpIfNotZero
      let r := lx.next
      compileGo fuel r.2 r.1 (acc ++ [{ kind := inst_kind, operand := none }])
    else .error .unreachableArm

/-- `Interpreter::load_program_from_file` with the file already read
into `code` (the file-IO `expect`s are setup faults outside the core):
fill the lexer, take the first symbol, and run the compile loop. -/
def load_program (code : List Char) (fuel : Nat) :
    Except CompileErr (List IRInstruction) :=
  let lx := Lexer.new.fill code
  let r := lx.next
  compileGo fuel r.2 r.1 []

/-! ### Loop resolver (`Interpreter::precompute_jumps`) -/

/-- The empty jump map (`HashMap::new()`). -/
def jmEmpty : Nat → Option Nat := fun _ => none

/-- `HashMap::insert` on the jump-map model. -/
def jmInsert (jm : Nat → Option Nat) (k v : Nat) : Nat → Option Nat :=
  fun a => if a = k then some v else jm a

/-- The resolver loop of `precompute_jumps`, iterating
`local_instruction_pointer` (= `lip`) over the program; `remaining` is
`program.drop lip`.  On `JumpIfZero` push the address; on
`JumpIfNotZero` pop (`unwrap`: popping an empty stack panics, modelled
as `none`) and insert the pair in both directions.  Note the source
never inspects the stack after the loop. -/
def precomputeGo : List IRInstruction → Nat → List Nat → (Nat → Option Nat) →
    Option (Nat → Option Nat)
  | [], _, _, jm => some jm
  | inst :: rest, lip, stack, jm =>
    match inst.kind with
    | .JumpIfZero => precomputeGo rest (lip + 1) (lip :: stack) jm
    | .JumpIfNotZero =>
      match stack with
      | [] => none
      | target :: stack2 =>
        precomputeGo rest (lip + 1) stack2 (jmInsert (jmInsert jm lip target) target lip)
    | _ => precomputeGo rest (lip + 1) stack jm

/-- `Interpreter::precompute_jumps`. -/
def precompute_jumps (program : List IRInstruction) : Option (Nat → Option Nat) :=
  precomputeGo program 0 [] jmEmpty

/-! ### Executor (`Interpreter::interpret`) -/

/-- Runtime faults: each constructor is a panic site of `interpret`.
`usizeOverflow`/`usizeUnderflow` are the checked traps of
`memory_pointer += / -=`; `byteOverflow`/`byteUnderflow` those of
`ram[mp] += / -=` on a `u8`; `ramIndexOOB` is an out-of-bounds tape
index; `jumpMapMiss` the `jump_map.get(..).unwrap()` on a missing key;
`operandMissing` the `operand.unwrap()` on `None`; `inputExhausted` the
`read_exact(..).expect(..)` on exhausted stdin. -/
inductive Fault where
  | operandMissing
  | usizeOverflow
  | usizeUnderflow
  | byteOverflow
  | byteUnderflow
  | ramIndexOOB
  | jumpMapMiss
  | inputExhausted
deriving DecidableEq

/-- Executor state: `memory_pointer`, `instruction_pointer`, the tape,
plus the modelled stdin/stdout byte streams. -/
structure MachineState where
  memory_pointer : Nat
  instruction_pointer : Nat
  ram : Nat → Nat
  input : List Nat
  output : List Nat

/-- Point update of the tape (`self.ram[i] = v`). -/
def updateRam (ram : Nat → Nat) (i v : Nat) : Nat → Nat :=
  fun j => if j = i then v else ram j

/-- Initial machine state: zeroed tape, both pointers 0, given stdin. -/
def initState (input : List Nat) : MachineState :=
  { memory_pointer := 0
    instruction_pointer := 0
    ram := fun _ => 0
    input := input
    output := [] }

/-- One arm of the `match inst.kind` in `interpret`, including the
unconditional `self.instruction_pointer += 1;` that follows the match
(folded into each arm: for a taken jump the pointer is first set to the
jump target and then still incremented, giving `target + 1`). -/
def execInst (jump_map : Nat → Option Nat) (inst : IRInstruction)
    (s : MachineState) : Except Fault MachineState :=
  match inst.kind with
  | .IncrementPointer =>
    match inst.operand with
    | none => .error .operandMissing
    | some n =>
      if s.memory_pointer + n ≤ USIZE_MAX then
        .ok { s with memory_pointer := s.memory_pointer + n
                     instruction_pointer := s.instruction_pointer + 1 }
      else .error .usizeOverflow
  | .DecrementPointer =>
    match inst.operand with
    | none => .error .operandMissing
    | some n =>
      if n ≤ s.memory_pointer then
        .ok { s with memory_pointer := s.memory_pointer - n
                     instruction_pointer := s.instruction_pointer + 1 }
      else .error .usizeUnderflow
  | .IncrementByte =>
    match inst.operand with
    | none => .error .operandMissing
    | some n =>
      if s.memory_pointer < RAM_SIZE then
        if s.ram s.memory_pointer + n ≤ U8_MAX then
          .ok { s with ram := updateRam s.ram s.memory_pointer (s.ram s.memory_pointer + n)
                       instruction_pointer := s.instruction_pointer + 1 }
        else .error .byteOverflow
      else .error .ramIndexOOB
  | .DecrementByte =>
    match inst.operand with
    | none => .error .operandMissing
    | some n =>
      if s.memory_pointer < RAM_SIZE then
        if n ≤ s.ram s.memory_pointer then
          .ok { s with ram := updateRam s.ram s.memory_pointer (s.ram s.memory_pointer - n)
                       instruction_pointer := s.instruction_pointer + 1 }
        else .error .byteUnderflow
      else .error .ramIndexOOB
  | .PrintByteAsChar =>
    if s.memory_pointer < RAM_SIZE then
      .ok { s with output := s.output ++ [s.ram s.memory_pointer]
                   instruction_pointer := s.instruction_pointer + 1 }
    else .error .ramIndexOOB
  | .ReadInputToByte =>
    match s.input with
    | [] => .error .inputExhausted
    | b :: rest =>
      if s.memory_pointer < RAM_SIZE then
        .ok { s with ram := updateRam s.ram s.memory_pointer b
                     input := rest
                     instruction_pointer := s.instruction_pointer + 1 }
      else .error .ramIndexOOB
  | .JumpIfZero =>
    if s.memory_pointer < RAM_SIZE then
      if s.ram s.memory_pointer = 0 then
        match jump_map s.instruction_pointer with
        | none => .error .jumpMapMiss
        | some target => .ok { s with instruction_pointer := target + 1 }
      else .ok { s with instruction_pointer := s.instruction_pointer + 1 }
    else .error .ramIndexOOB
  | .JumpIfNotZero =>
    if s.memory_pointer < RAM_SIZE then
      if s.ram s.memory_pointer = 0 then
        .ok { s with instruction_pointer := s.instruction_pointer + 1 }
      else
        match jump_map s.instruction_pointer with
        | none => .error .jumpMapMiss
        | some target => .ok { s with instruction_pointer := target + 1 }
    else .error .ramIndexOOB

/-- Outcome of the `interpret` fetch-decode-execute loop. -/
inductive RunResult where
  | ok (s : MachineState)
  | fault (f : Fault)
  | fuelOut

/-- The `while self.instruction_pointer < self.program.len()` loop of
`interpret`, run with explicit fuel (the loop need not terminate). -/
def run (program : List IRInstruction) (jump_map : Nat → Option Nat) :
    Nat → MachineState → RunResult
  | 0, _ => .fuelOut
  | fuel + 1, s =>
    match program[s.instruction_pointer]? with
    | none => .ok s
    | some inst =>
      match execInst jump_map inst s with
      | .error f => .fault f
      | .ok s2 => run program jump_map fuel s2

/-- Instruction pointer of a successful step, if any. -/
def okIp : Except Fault MachineState → Option Nat
  | .ok s => some s.instruction_pointer
  | .error _ => none

/-- Forget the instruction pointer of a run's final state (used to
compare final tape/IO state across programs of different lengths). -/
def RunResult.sansIp : RunResult → RunResult
  | .ok s => .ok { s with instruction_pointer := 0 }
  | r => r

/-- Whether a run terminated normally (instruction pointer ran off the
end of the program without a fault). -/
def RunResult.isNormal : RunResult → Bool
  | .ok _ => true
  | _ => false

/-- The condition under which `interpret` takes a jump at the current
instruction: a `JumpIfZero` on a zero cell or a `JumpIfNotZero` on a
non-zero cell. -/
def jumpTaken (inst : IRInstruction) (s : MachineState) : Prop :=
  (inst.kind = .JumpIfZero ∧ s.ram s.memory_pointer = 0) ∨
  (inst.kind = .JumpIfNotZero ∧ s.ram s.memory_pointer ≠ 0)

/-- The jump map produced by the resolver for the program compiled from
`"++[-]"`: addresses 1 and 3 are the matched bracket pair. -/
def jmLoopPair : Nat → Option Nat :=
  fun a => if a = 1 then some 3 else if a = 3 then some 1 else none

/-- Whether a compile ended in the `unreachableArm` marker. -/
def isUnreachableErr : Except CompileErr (List IRInstruction) → Bool
  | .error .unreachableArm => true
  | _ => false

/-- The shape every compiled instruction's operand must have: a count of
at least 1 for the four collapsible kinds, no operand for the others. -/
def operandOk (inst : IRInstruction) : Bool :=
  match collapsibleKind inst.kind, inst.operand with
  | true, some n => decide (1 ≤ n)
  | true, none => false
  | false, some _ => false
  | false, none => true

/-- Whether a step's result is the `operand.unwrap()` panic. -/
def isOperandMissing : Except Fault MachineState → Bool
  | .error .operandMissing => true
  | _ => false

/-- The shape of a resolved jump-table entry: the two addresses hold a
`JumpIfZero`/`JumpIfNotZero` bracket pair with the open strictly before
the close. -/
def Shape (prog : List IRInstruction) (a b : Nat) : Prop :=
  (∃ ia ib, prog[a]? = some ia ∧ prog[b]? = some ib ∧
    ia.kind = .JumpIfZero ∧ ib.kind = .JumpIfNotZero ∧ a < b) ∨
  (∃ ia ib, prog[a]? = some ia ∧ prog[b]? = some ib ∧
    ia.kind = .JumpIfNotZero ∧ ib.kind = .JumpIfZero ∧ b < a)

/-- The jump map the resolver produces for the two-instruction program
`[JumpIfZero, JumpIfNotZero]` (compiled from `"[]"`). -/
def jmPair01 : Nat → Option Nat :=
  fun a => if a = 0 then some 1 else if a = 1 then some 0 else none



/-- Tape-level state: the two components a collapsible instruction can
touch (`memory_pointer` and the tape). -/
structure TapeState where
  memory_pointer : Nat
  ram : Nat → Nat

/-- Tape-level effect of one collapsible instruction carrying count `n`:
the same arithmetic and checks as the corresponding `execInst` arms,
restricted to the components those arms touch.  Non-collapsible kinds
are never passed to it. -/
def execTapeOp (k : IRInstructionKind) (n : Nat) (t : TapeState) :
    Except Fault TapeState :=
  match k with
  | .IncrementPointer =>
    if t.memory_pointer + n ≤ USIZE_MAX then
      .ok { t with memory_pointer := t.memory_pointer + n }
    else .error .usizeOverflow
  | .DecrementPointer =>
    if n ≤ t.memory_pointer then
      .ok { t with memory_pointer := t.memory_pointer - n }
    else .error .usizeUnderflow
  | .IncrementByte =>
    if t.memory_pointer < RAM_SIZE then
      if t.ram t.memory_pointer + n ≤ U8_MAX then
        .ok { t with ram := updateRam t.ram t.memory_pointer (t.ram t.memory_pointer + n) }
      else .error .byteOverflow
    else .error .ramIndexOOB
  | .DecrementByte =>
    if t.memory_pointer < RAM_SIZE then
      if n ≤ t.ram t.memory_pointer then
        .ok { t with ram := updateRam t.ram t.memory_pointer (t.ram t.memory_pointer - n) }
      else .error .byteUnderflow
    else .error .ramIndexOOB
  | _ => .error .operandMissing

/-- Sequential tape-level execution of a list of (kind, count) ops. -/
def execTapeOps : List (IRInstructionKind × Nat) → TapeState → Except Fault TapeState
  | [], t => .ok t
  | p :: rest, t =>
    match execTapeOp p.1 p.2 t with
    | .error f => .error f
    | .ok t2 => execTapeOps rest t2

/-- Straight-line execution of an instruction list by the executor's own
step function (no jumps taken: used only on collapsible instructions). -/
def execSL (jump_map : Nat → Option Nat) :
    List IRInstruction → MachineState → Except Fault MachineState
  | [], s => .ok s
  | inst :: rest, s =>
    match execInst jump_map inst s with
    | .error f => .error f
    | .ok s2 => execSL jump_map rest s2

/-- The run-length-collapsed IR of a sequence of (kind, count) ops. -/
def collapseOps (ops : List (IRInstructionKind × Nat)) : List IRInstruction :=
  ops.map (fun p => { kind := p.1, operand := some p.2 })

/-- The uncollapsed one-instruction-per-character IR of the same
sequence: each (kind, count) op becomes count copies with count 1. -/
def expandOps : List (IRInstructionKind × Nat) → List IRInstruction
  | [] => []
  | p :: rest => List.replicate p.2 { kind := p.1, operand := some 1 } ++ expandOps rest

/-- The same expansion at the (kind, count) level. -/
def expandUnits : List (IRInstructionKind × Nat) → List (IRInstructionKind × Nat)
  | [] => []
  | p :: rest => List.replicate p.2 (p.1, 1) ++ expandUnits rest

/-! ## Theorems -/

/-! ### Supporting lemmas -/
theorem updateRam_read (r : Nat → Nat) (i v : Nat) : updateRam r i v i = v := by
  simp [updateRam]

theorem updateRam_updateRam (r : Nat → Nat) (i a b : Nat) :
    updateRam (updateRam r i a) i b = updateRam r i b := by
  funext j
  by_cases hj : j = i <;> simp [updateRam, hj]

theorem execInst_collapsible (k : IRInstructionKind) (hk : collapsibleKind k = true)
    (n : Nat) (jump_map : Nat → Option Nat) (s : MachineState) :
    execInst jump_map { kind := k, operand := some n } s =
      (match execTapeOp k n { memory_pointer := s.memory_pointer, ram := s.ram } with
       | .ok t =>
         .ok { s with memory_pointer := t.memory_pointer
                      ram := t.ram
                      instruction_pointer := s.instruction_pointer + 1 }
       | .error f => .error f) := by
  cases k <;> simp [collapsibleKind] at hk
  · by_cases h : s.memory_pointer + n ≤ USIZE_MAX <;> simp [execInst, execTapeOp, h]
  · by_cases h : n ≤ s.memory_pointer <;> simp [execInst, execTapeOp, h]
  · by_cases h1 : s.memory_pointer < RAM_SIZE
    · by_cases h2 : s.ram s.memory_pointer + n ≤ U8_MAX <;> simp [execInst, execTapeOp, h1, h2]
    · simp [execInst, execTapeOp, h1]
  · by_cases h1 : s.memory_pointer < RAM_SIZE
    · by_cases h2 : n ≤ s.ram s.memory_pointer <;> simp [execInst, execTapeOp, h1, h2]
    · simp [execInst, execTapeOp, h1]

theorem execInst_collapsible_ip (inst : IRInstruction)
    (hk : collapsibleKind inst.kind = true) (jump_map : Nat → Option Nat)
    (s s2 : MachineState) (h : execInst jump_map inst s = .ok s2) :
    s2.instruction_pointer = s.instruction_pointer + 1 := by
  obtain ⟨k, op⟩ := inst
  cases op with
  | none =>
    cases k <;> simp [collapsibleKind] at hk <;> simp [execInst] at h
  | some n =>
    rw [execInst_collapsible k hk n] at h
    cases hr : execTapeOp k n { memory_pointer := s.memory_pointer, ram := s.ram } with
    | error f => rw [hr] at h; exact absurd h (by simp)
    | ok t =>
      rw [hr] at h
      injection h with h2
      subst h2
      rfl



theorem execTapeOps_cons (p : IRInstructionKind × Nat)
    (rest : List (IRInstructionKind × Nat)) (t : TapeState) :
    execTapeOps (p :: rest) t =
      (match execTapeOp p.1 p.2 t with
       | .error f => .error f
       | .ok t2 => execTapeOps rest t2) := rfl

theorem execTapeOp_expand (k : IRInstructionKind) (hk : collapsibleKind k = true) :
    ∀ (n : Nat) (t : TapeState),
      execTapeOp k (n + 1) t = execTapeOps (List.replicate (n + 1) (k, 1)) t := by
  intro n
  induction n with
  | zero =>
    intro t
    cases hr : execTapeOp k 1 t <;> simp [execTapeOps, hr]
  | succ m ihm =>
    intro t
    obtain ⟨mp, ram⟩ := t
    have hrep : List.replicate (m + 1 + 1) (k, 1) = (k, 1) :: List.replicate (m + 1) (k, 1) := rfl
    rw [hrep, execTapeOps_cons]
    cases k <;> simp [collapsibleKind] at hk
    case IncrementPointer =>
      by_cases h1 : mp + 1 ≤ USIZE_MAX
      · have hstep1 : execTapeOp .IncrementPointer 1 ⟨mp, ram⟩ =
            .ok ⟨mp + 1, ram⟩ := by simp [execTapeOp, h1]
        have harith : execTapeOp IRInstructionKind.IncrementPointer (m + 1 + 1) ⟨mp, ram⟩ =
            execTapeOp IRInstructionKind.IncrementPointer (m + 1) ⟨mp + 1, ram⟩ := by
          simp only [execTapeOp]
          have he : mp + 1 + (m + 1) = mp + (m + 1 + 1) := by omega
          rw [he]
        rw [hstep1, harith, ihm ⟨mp + 1, ram⟩]
      · have h2 : ¬ (mp + (m + 1 + 1) ≤ USIZE_MAX) := by omega
        have hstep1 : execTapeOp .IncrementPointer 1 ⟨mp, ram⟩ =
            .error .usizeOverflow := by simp [execTapeOp, h1]
        rw [hstep1]
        simp [execTapeOp, h2]
    case DecrementPointer =>
      by_cases h1 : 1 ≤ mp
      · have hstep1 : execTapeOp .DecrementPointer 1 ⟨mp, ram⟩ =
            .ok ⟨mp - 1, ram⟩ := by simp [execTapeOp, h1]
        have harith : execTapeOp IRInstructionKind.DecrementPointer (m + 1 + 1) ⟨mp, ram⟩ =
            execTapeOp IRInstructionKind.DecrementPointer (m + 1) ⟨mp - 1, ram⟩ := by
          by_cases h2 : m + 1 + 1 ≤ mp
          · have h3 : m + 1 ≤ mp - 1 := by omega
            have he : mp - 1 - (m + 1) = mp - (m + 1 + 1) := by omega
            simp [execTapeOp, h2, h3, he]
          · have h3 : ¬ (m + 1 ≤ mp - 1) := by omega
            simp [execTapeOp, h2, h3]
        rw [hstep1, harith, ihm ⟨mp - 1, ram⟩]
      · have h2 : ¬ (m + 1 + 1 ≤ mp) := by omega
        have hstep1 : execTapeOp .DecrementPointer 1 ⟨mp, ram⟩ =
            .error .usizeUnderflow := by simp [execTapeOp, h1]
        rw [hstep1]
        simp [execTapeOp, h2]
    case IncrementByte =>
      by_cases hb : mp < RAM_SIZE
      · by_cases h1 : ram mp + 1 ≤ U8_MAX
        · have hstep1 : execTapeOp .IncrementByte 1 ⟨mp, ram⟩ =
              .ok ⟨mp, updateRam ram mp (ram mp + 1)⟩ := by simp [execTapeOp, hb, h1]
          have harith : execTapeOp IRInstructionKind.IncrementByte (m + 1 + 1) ⟨mp, ram⟩ =
              execTapeOp IRInstructionKind.IncrementByte (m + 1)
                ⟨mp, updateRam ram mp (ram mp + 1)⟩ := by
            simp only [execTapeOp, updateRam_read, updateRam_updateRam]
            have he : ram mp + 1 + (m + 1) = ram mp + (m + 1 + 1) := by omega
            rw [he]
          rw [hstep1, harith, ihm ⟨mp, updateRam ram mp (ram mp + 1)⟩]
        · have h2 : ¬ (ram mp + (m + 1 + 1) ≤ U8_MAX) := by omega
          have hstep1 : execTapeOp .IncrementByte 1 ⟨mp, ram⟩ =
              .error .byteOverflow := by simp [execTapeOp, hb, h1]
          rw [hstep1]
          simp [execTapeOp, hb, h2]
      · have hstep1 : execTapeOp .IncrementByte 1 ⟨mp, ram⟩ =
            .error .ramIndexOOB := by simp [execTapeOp, hb]
        rw [hstep1]
        simp [execTapeOp, hb]
    case DecrementByte =>
      by_cases hb : mp < RAM_SIZE
      · by_cases h1 : 1 ≤ ram mp
        · have hstep1 : execTapeOp .DecrementByte 1 ⟨mp, ram⟩ =
              .ok ⟨mp, updateRam ram mp (ram mp - 1)⟩ := by simp [execTapeOp, hb, h1]
          have harith : execTapeOp IRInstructionKind.DecrementByte (m + 1 + 1) ⟨mp, ram⟩ =
              execTapeOp IRInstructionKind.DecrementByte (m + 1)
                ⟨mp, updateRam ram mp (ram mp - 1)⟩ := by
            by_cases h2 : m + 1 + 1 ≤ ram mp
            · have h3 : m + 1 ≤ ram mp - 1 := by omega
              have he : ram mp - 1 - (m + 1) = ram mp - (m + 1 + 1) := by omega
              simp [execTapeOp, updateRam_read, updateRam_updateRam, hb, h2, h3, he]
            · have h3 : ¬ (m + 1 ≤ ram mp - 1) := by omega
              simp [execTapeOp, updateRam_read, updateRam_updateRam, hb, h2, h3]
          rw [hstep1, harith, ihm ⟨mp, updateRam ram mp (ram mp - 1)⟩]
        · have h2 : ¬ (m + 1 + 1 ≤ ram mp) := by omega
          have hstep1 : execTapeOp .DecrementByte 1 ⟨mp, ram⟩ =
              .error .byteUnderflow := by simp [execTapeOp, hb, h1]
          rw [hstep1]
          simp [execTapeOp, hb, h2]
      · have hstep1 : execTapeOp .DecrementByte 1 ⟨mp, ram⟩ =
            .error .ramIndexOOB := by simp [execTapeOp, hb]
        rw [hstep1]
        simp [execTapeOp, hb]

theorem execTapeOps_append (xs ys : List (IRInstructionKind × Nat)) :
    ∀ t, execTapeOps (xs ++ ys) t =
      (match execTapeOps xs t with
       | .error f => .error f
       | .ok t2 => execTapeOps ys t2) := by
  induction xs with
  | nil => intro t; rfl
  | cons p xs ih =>
    intro t
    simp only [List.cons_append, execTapeOps]
    cases hr : execTapeOp p.1 p.2 t <;> simp [hr, ih]

theorem execTapeOps_expandUnits (ops : List (IRInstructionKind × Nat))
    (h : ∀ p ∈ ops, collapsibleKind p.1 = true ∧ 1 ≤ p.2) :
    ∀ t, execTapeOps ops t = execTapeOps (expandUnits ops) t := by
  induction ops with
  | nil => intro t; rfl
  | cons p rest ih =>
    intro t
    obtain ⟨k, cnt⟩ := p
    obtain ⟨hk, hn⟩ := h (k, cnt) (List.mem_cons_self _ _)
    obtain ⟨m, rfl⟩ : ∃ m, cnt = m + 1 := ⟨cnt - 1, by omega⟩
    simp only [expandUnits]
    rw [execTapeOps_append]
    rw [← execTapeOp_expand k hk m]
    simp only [execTapeOps]
    cases hr : execTapeOp k (m + 1) t <;> simp [hr]
    exact ih (fun q hq => h q (List.mem_cons_of_mem _ hq)) _

theorem expandOps_eq_collapse (ops : List (IRInstructionKind × Nat)) :
    expandOps ops = collapseOps (expandUnits ops) := by
  induction ops with
  | nil => rfl
  | cons p rest ih => simp [expandOps, expandUnits, collapseOps, ih]

theorem expandUnits_mem (ops : List (IRInstructionKind × Nat))
    (h : ∀ p ∈ ops, collapsibleKind p.1 = true) :
    ∀ q ∈ expandUnits ops, collapsibleKind q.1 = true ∧ 1 ≤ q.2 := by
  induction ops with
  | nil => intro q hq; exact absurd hq (List.not_mem_nil q)
  | cons p rest ih =>
    intro q hq
    simp only [expandUnits] at hq
    rcases List.mem_append.mp hq with hq | hq
    · have := List.eq_of_mem_replicate hq
      subst this
      exact ⟨h p (List.mem_cons_self _ _), Nat.le_refl 1⟩
    · exact ih (fun r hr => h r (List.mem_cons_of_mem _ hr)) q hq

theorem execSL_collapseOps (jump_map : Nat → Option Nat)
    (ops : List (IRInstructionKind × Nat)) :
    ∀ s : MachineState, (∀ p ∈ ops, collapsibleKind p.1 = true) →
      execSL jump_map (collapseOps ops) s =
        (match execTapeOps ops { memory_pointer := s.memory_pointer, ram := s.ram } with
         | .ok t =>
           .ok { s with memory_pointer := t.memory_pointer
                        ram := t.ram
                        instruction_pointer := s.instruction_pointer + ops.length }
         | .error f => .error f) := by
  induction ops with
  | nil => intro s h; rfl
  | cons p rest ih =>
    intro s h
    obtain ⟨k, cnt⟩ := p
    simp only [collapseOps, List.map_cons, execSL]
    rw [execInst_collapsible k (h (k, cnt) (List.mem_cons_self _ _)) cnt]
    cases hr : execTapeOp k cnt { memory_pointer := s.memory_pointer, ram := s.ram } with
    | error f => simp [execTapeOps_cons, hr]
    | ok t =>
      obtain ⟨tmp, tram⟩ := t
      have ihs := ih { s with memory_pointer := tmp
                              ram := tram
                              instruction_pointer := s.instruction_pointer + 1 }
        (fun q hq => h q (List.mem_cons_of_mem _ hq))
      refine ihs.trans ?_
      simp only [execTapeOps_cons, hr]
      have he : s.instruction_pointer + 1 + rest.length =
          s.instruction_pointer + (rest.length + 1) := by omega
      cases hr2 : execTapeOps rest ⟨tmp, tram⟩ <;> simp [he]

theorem run_succ (prog : List IRInstruction) (jump_map : Nat → Option Nat)
    (fuel : Nat) (s : MachineState) :
    run prog jump_map (fuel + 1) s =
      (match prog[s.instruction_pointer]? with
       | none => RunResult.ok s
       | some inst =>
         match execInst jump_map inst s with
         | .error f => RunResult.fault f
         | .ok s2 => run prog jump_map fuel s2) := rfl

theorem run_straight (prog : List IRInstruction) (jump_map : Nat → Option Nat) :
    ∀ (rest : List IRInstruction) (s : MachineState),
      prog.drop s.instruction_pointer = rest →
      (∀ i ∈ prog, collapsibleKind i.kind = true) →
      run prog jump_map (rest.length + 1) s =
        (match execSL jump_map rest s with
         | .ok s2 => RunResult.ok s2
         | .error f => RunResult.fault f) := by
  intro rest
  induction rest with
  | nil =>
    intro s hdrop hcol
    have hnone : prog[s.instruction_pointer]? = none :=
      List.getElem?_eq_none (List.drop_eq_nil_iff.mp hdrop)
    simp [run, hnone, execSL]
  | cons inst rest2 ih =>
    intro s hdrop hcol
    have hget : prog[s.instruction_pointer]? = some inst := by
      have h0 : (prog.drop s.instruction_pointer)[0]? = some inst := by rw [hdrop]; simp
      rw [List.getElem?_drop] at h0
      simpa using h0
    have hmem : inst ∈ prog := by
      have hmem2 : inst ∈ prog.drop s.instruction_pointer := by
        rw [hdrop]; exact List.mem_cons_self _ _
      exact List.drop_subset _ _ hmem2
    show run prog jump_map (rest2.length + 1 + 1) s = _
    rw [run_succ, hget]
    show (match execInst jump_map inst s with
          | .error f => RunResult.fault f
          | .ok s2 => run prog jump_map (rest2.length + 1) s2) =
        (match execSL jump_map (inst :: rest2) s with
         | .ok s2 => RunResult.ok s2
         | .error f => RunResult.fault f)
    cases hstep : execInst jump_map inst s with
    | error f =>
      show RunResult.fault f = _
      simp [execSL, hstep]
    | ok s2 =>
      have hip : s2.instruction_pointer = s.instruction_pointer + 1 :=
        execInst_collapsible_ip inst (hcol inst hmem) jump_map s s2 hstep
      have hdrop2 : prog.drop s2.instruction_pointer = rest2 := by
        rw [hip, ← List.tail_drop, hdrop]
        rfl
      show run prog jump_map (rest2.length + 1) s2 = _
      rw [ih s2 hdrop2 hcol]
      simp [execSL, hstep]



theorem nextAux_fst (l : List Char) (pos : Nat) :
    (nextAux l pos).1 = (l.filter is_valid_brainfuck_instruction).headD '@' := by
  induction l generalizing pos with
  | nil => rfl
  | cons c rest ih =>
    by_cases hv : is_valid_brainfuck_instruction c
    · simp [nextAux, hv, List.filter_cons]
    · simp [nextAux, hv, List.filter_cons, ih]

theorem nextAux_drop (content : List Char) (l : List Char) (pos : Nat)
    (h : content.drop pos = l) :
    (content.drop (nextAux l pos).2).filter is_valid_brainfuck_instruction =
      ((l.filter is_valid_brainfuck_instruction)).tail := by
  induction l generalizing pos with
  | nil => simp [nextAux, h]
  | cons c rest ih =>
    have hrest : content.drop (pos + 1) = rest := by
      rw [← List.tail_drop, h]
      rfl
    by_cases hv : is_valid_brainfuck_instruction c
    · simp [nextAux, hv, List.filter_cons, hrest]
    · simp only [nextAux, hv, if_neg, Bool.false_eq_true, ite_false]
      rw [ih (pos + 1) hrest]
      simp [List.filter_cons, hv]

theorem getD_tail (l : List Char) (i : Nat) (d : Char) :
    l.tail.getD i d = l.getD (i + 1) d := by
  cases l <;> simp [List.getD]

theorem tokenAt_spec (i : Nat) (content : List Char) (pos : Nat) :
    Lexer.tokenAt { position_in_code := pos, content := content } i =
      ((content.drop pos).filter is_valid_brainfuck_instruction).getD i '@' := by
  induction i generalizing pos with
  | zero =>
    show (Lexer.next _).1 = _
    rw [Lexer.next]
    simp only []
    rw [nextAux_fst]
    cases hf : (content.drop pos).filter is_valid_brainfuck_instruction <;> simp [hf, List.getD]
  | succ i ih =>
    show Lexer.tokenAt (Lexer.next _).2 i = _
    rw [Lexer.next]
    simp only []
    rw [ih]
    rw [nextAux_drop content (content.drop pos) pos rfl]
    rw [getD_tail]

theorem next_fst_valid (lx : Lexer) :
    (lx.next).1 = '@' ∨ is_valid_brainfuck_instruction (lx.next).1 = true := by
  have h : (lx.next).1 = ((lx.content.drop lx.position_in_code).filter
      is_valid_brainfuck_instruction).headD '@' := by
    rw [Lexer.next]
    simp only []
    rw [nextAux_fst]
  cases hf : (lx.content.drop lx.position_in_code).filter is_valid_brainfuck_instruction with
  | nil => left; rw [h, hf]; rfl
  | cons a t =>
    right
    have ha : a ∈ (lx.content.drop lx.position_in_code).filter is_valid_brainfuck_instruction := by
      rw [hf]; exact List.mem_cons_self a t
    have hv := List.of_mem_filter ha
    rw [h, hf]
    exact hv

theorem valid_char_cases (c : Char) (h : is_valid_brainfuck_instruction c = true) :
    c = '>' ∨ c = '<' ∨ c = '+' ∨ c = '-' ∨ c = '.' ∨ c = ',' ∨ c = '[' ∨ c = ']' := by
  simp [is_valid_brainfuck_instruction, validChars, List.contains] at h
  tauto



theorem collapseGo_ok_char (fuel : Nat) :
    ∀ (lx : Lexer) (c : Char) (streak : Nat) (s : Char) (r : Nat × Char × Lexer),
      (s = '@' ∨ is_valid_brainfuck_instruction s = true) →
      collapseGo fuel lx c streak s = .ok r →
      (r.2.1 = '@' ∨ is_valid_brainfuck_instruction r.2.1 = true) := by
  induction fuel with
  | zero => intro lx c streak s r hs h; exact absurd h (by simp [collapseGo])
  | succ fuel ih =>
    intro lx c streak s r hs h
    simp only [collapseGo] at h
    by_cases hcs : c = s
    · rw [if_pos hcs] at h
      by_cases hst : streak = U8_MAX
      · rw [if_pos hst] at h; exact absurd h (by simp)
      · rw [if_neg hst] at h
        exact ih _ _ _ _ _ (next_fst_valid lx) h
    · rw [if_neg hcs] at h
      injection h with h2
      subst h2
      exact hs

theorem collapseGo_err (fuel : Nat) :
    ∀ (lx : Lexer) (c : Char) (streak : Nat) (s : Char) (e : CompileErr),
      collapseGo fuel lx c streak s = .error e →
      e = .fuelOut ∨ e = .streakOverflow := by
  induction fuel with
  | zero =>
    intro lx c streak s e h
    simp only [collapseGo] at h
    injection h with h2
    exact Or.inl h2.symm
  | succ fuel ih =>
    intro lx c streak s e h
    simp only [collapseGo] at h
    by_cases hcs : c = s
    · rw [if_pos hcs] at h
      by_cases hst : streak = U8_MAX
      · rw [if_pos hst] at h
        injection h with h2
        exact Or.inr h2.symm
      · rw [if_neg hst] at h
        exact ih _ _ _ _ _ h
    · rw [if_neg hcs] at h; exact absurd h (by simp)

theorem collapseGo_streak_ge (fuel : Nat) :
    ∀ (lx : Lexer) (c : Char) (streak : Nat) (s : Char) (r : Nat × Char × Lexer),
      1 ≤ streak → collapseGo fuel lx c streak s = .ok r → 1 ≤ r.1 := by
  induction fuel with
  | zero => intro lx c streak s r hs h; exact absurd h (by simp [collapseGo])
  | succ fuel ih =>
    intro lx c streak s r hs h
    simp only [collapseGo] at h
    by_cases hcs : c = s
    · rw [if_pos hcs] at h
      by_cases hst : streak = U8_MAX
      · rw [if_pos hst] at h; exact absurd h (by simp)
      · rw [if_neg hst] at h
        exact ih _ _ _ _ _ (Nat.le_succ_of_le hs) h
    · rw [if_neg hcs] at h
      injection h with h2
      subst h2
      exact hs

theorem compileGo_no_unreachable (fuel : Nat) :
    ∀ (lx : Lexer) (c : Char) (acc : List IRInstruction),
      (c = '@' ∨ is_valid_brainfuck_instruction c = true) →
      isUnreachableErr (compileGo fuel lx c acc) = false := by
  induction fuel with
  | zero => intro lx c acc hc; rfl
  | succ fuel ih =>
    intro lx c acc hc
    by_cases h1 : c = '@'
    · subst h1; simp [compileGo, isUnreachableErr]
    · by_cases h2 : c = '>' ∨ c = '<' ∨ c = '+' ∨ c = '-'
      · simp only [compileGo, if_neg h1, if_pos h2]
        cases hco : collapseGo fuel lx.next.2 c 1 lx.next.1 with
        | error e =>
          rcases collapseGo_err fuel _ _ _ _ _ hco with rfl | rfl <;> rfl
        | ok r =>
          obtain ⟨streak, s2, lx2⟩ := r
          exact ih _ _ _ (collapseGo_ok_char fuel _ _ _ _ _ (next_fst_valid lx) hco)
      · by_cases h3 : c = '.' ∨ c = ',' ∨ c = '[' ∨ c = ']'
        · simp only [compileGo, if_neg h1, if_neg h2, if_pos h3]
          exact ih _ _ _ (next_fst_valid lx)
        · exfalso
          rcases hc with hc | hc
          · exact h1 hc
          · rcases valid_char_cases c hc with rfl | rfl | rfl | rfl | rfl | rfl | rfl | rfl
            · exact h2 (by decide)
            · exact h2 (by decide)
            · exact h2 (by decide)
            · exact h2 (by decide)
            · exact h3 (by decide)
            · exact h3 (by decide)
            · exact h3 (by decide)
            · exact h3 (by decide)

theorem compileGo_operandOk (fuel : Nat) :
    ∀ (lx : Lexer) (c : Char) (acc prog : List IRInstruction),
      (∀ i ∈ acc, operandOk i = true) →
      compileGo fuel lx c acc = .ok prog →
      ∀ i ∈ prog, operandOk i = true := by
  induction fuel with
  | zero => intro lx c acc prog hacc h; exact absurd h (by simp [compileGo])
  | succ fuel ih =>
    intro lx c acc prog hacc h
    simp only [compileGo] at h
    by_cases h1 : c = '@'
    · rw [if_pos h1] at h
      injection h with h2
      subst h2
      exact hacc
    · rw [if_neg h1] at h
      by_cases h2 : c = '>' ∨ c = '<' ∨ c = '+' ∨ c = '-'
      · rw [if_pos h2] at h
        cases hco : collapseGo fuel lx.next.2 c 1 lx.next.1 with
        | error e => rw [hco] at h; exact absurd h (by simp)
        | ok r =>
          obtain ⟨streak, s2, lx2⟩ := r
          rw [hco] at h
          have hstreak : 1 ≤ streak := collapseGo_streak_ge fuel _ _ _ _ _ (by decide) hco
          refine ih _ _ _ _ ?_ h
          intro i hi
          rcases List.mem_append.mp hi with hi | hi
          · exact hacc i hi
          · rw [List.mem_singleton] at hi
            subst hi
            have hk : collapsibleKind
                (if c = '>' then IRInstructionKind.IncrementPointer
                 else if c = '<' then IRInstructionKind.DecrementPointer
                 else if c = '+' then IRInstructionKind.IncrementByte
                 else IRInstructionKind.DecrementByte) = true := by
              split
              · rfl
              · split
                · rfl
                · split
                  · rfl
                  · rfl
            simp [operandOk, hk, hstreak]
      · rw [if_neg h2] at h
        by_cases h3 : c = '.' ∨ c = ',' ∨ c = '[' ∨ c = ']'
        · rw [if_pos h3] at h
          refine ih _ _ _ _ ?_ h
          intro i hi
          rcases List.mem_append.mp hi with hi | hi
          · exact hacc i hi
          · rw [List.mem_singleton] at hi
            subst hi
            have hk : collapsibleKind
                (if c = '.' then IRInstructionKind.PrintByteAsChar
                 else if c = ',' then IRInstructionKind.ReadInputToByte
                 else if c = '[' then IRInstructionKind.JumpIfZero
                 else IRInstructionKind.JumpIfNotZero) = false := by
              split
              · rfl
              · split
                · rfl
                · split
                  · rfl
                  · rfl
            simp [operandOk, hk]
        · rw [if_neg h3] at h; exact absurd h (by simp)


/-- A step on an instruction whose operand has the compiled shape never
hits the `operand.unwrap()` panic. -/
theorem execInst_no_operandMissing (inst : IRInstruction)
    (hok : operandOk inst = true) (jump_map : Nat → Option Nat)
    (s : MachineState) : isOperandMissing (execInst jump_map inst s) = false := by
  obtain ⟨k, op⟩ := inst
  cases k <;> cases op <;>
    simp [operandOk, collapsibleKind] at hok <;>
    simp only [execInst] <;>
    (repeat' split) <;> rfl


/-! ### Claim C1: cell arithmetic -/

/-- C1 (code_bug evidence): cell arithmetic does NOT wrap modulo 256.
The one-character program consisting of a single decrement compiles to
`DecrementByte(1)`, and executing it on a fresh (all-zero) tape traps
with a byte-underflow fault (`ram[0] -= 1` on a `u8` holding 0 is an
arithmetic underflow of Rust's non-wrapping `-=`), instead of wrapping
the cell to 255 as the claim requires. -/
theorem c1_cell_arithmetic_faults_on_underflow :
    load_program ['-'] 20 = .ok [{ kind := .DecrementByte, operand := some 1 }] ∧
    run [{ kind := .DecrementByte, operand := some 1 }] jmEmpty 2 (initState []) =
      .fault .byteUnderflow :=
  ⟨rfl, rfl⟩

/-! ### Claim C2: unbalanced brackets -/

/-- C2 (code_bug evidence): an unmatched `LoopOpen` is NOT fatal during
the resolver pass.  The source `"+["` compiles, `precompute_jumps` runs
to completion leaving the jump map empty (the leftover stack is never
inspected), and the program then executes to normal termination.  Only
the `LoopClose`-with-empty-stack half of the claim holds: a lone
`JumpIfNotZero` makes the resolver's `stack.pop().unwrap()` panic
(modelled as `none`). -/
theorem c2_unmatched_loop_open_not_rejected :
    load_program ['+', '['] 20 =
      .ok [{ kind := .IncrementByte, operand := some 1 },
           { kind := .JumpIfZero, operand := none }] ∧
    precompute_jumps [{ kind := .IncrementByte, operand := some 1 },
                      { kind := .JumpIfZero, operand := none }] = some jmEmpty ∧
    (run [{ kind := .IncrementByte, operand := some 1 },
          { kind := .JumpIfZero, operand := none }] jmEmpty 3 (initState [])).isNormal
      = true ∧
    precompute_jumps [{ kind := .JumpIfNotZero, operand := none }] = none :=
  ⟨rfl, rfl, rfl, rfl⟩

/-! ### Claim C3: runs longer than 255 -/

set_option maxRecDepth 100000 in
/-- C3 (code_bug evidence): a run of 256 identical `'+'` characters is
neither clamped, rejected by an explicit check, nor split: the unchecked
`streak += 1` on a `u8` holding 255 overflows (a trap under checked
arithmetic; a silent wrap to 0 in unchecked release builds). -/
theorem c3_streak_count_overflows :
    load_program (List.replicate 256 '+') 600 = .error .streakOverflow :=
  rfl

/-! ### Claim C4: pointer bounds -/

/-- C4 (code_bug evidence): `memory_pointer += n` carries no bounds
check.  From a state with the pointer at 99,999 (tape length 100,000),
`IncrementPointer(5)` succeeds, leaving the pointer at 100,004 — beyond
the tape — and the one-instruction program then terminates normally
instead of faulting at that instruction.  (The `PointerDecrement`
half of the claim does hold: decrementing the pointer below 0 is an
immediate `usize` underflow trap.) -/
theorem c4_pointer_bounds_unchecked_on_increment :
    execInst jmEmpty { kind := .IncrementPointer, operand := some 5 }
      { memory_pointer := 99999, instruction_pointer := 0, ram := fun _ => 0,
        input := [], output := [] } =
      .ok { memory_pointer := 100004, instruction_pointer := 1, ram := fun _ => 0,
            input := [], output := [] } ∧
    RAM_SIZE < 100004 ∧
    (run [{ kind := .IncrementPointer, operand := some 5 }] jmEmpty 2
      { memory_pointer := 99999, instruction_pointer := 0, ram := fun _ => 0,
        input := [], output := [] }).isNormal = true ∧
    execInst jmEmpty { kind := .DecrementPointer, operand := some 1 } (initState []) =
      .error .usizeUnderflow :=
  ⟨rfl, by decide, rfl, rfl⟩

/-! ### Claim C5: instruction-pointer advancement -/

/-- C5 counterexample: the matching bracket is NOT the next instruction
executed after a taken jump.  In the program compiled from `"++[-]"`,
the `JumpIfNotZero` at address 3 (cell value 1, matching `JumpIfZero` at
address 1) leaves the instruction pointer at 2 — the instruction AFTER
the matching bracket — because `interpret` sets the pointer to the jump
target and then still increments it in the same loop iteration. -/
theorem c5_jump_lands_after_bracket_counterexample :
    load_program ['+', '+', '[', '-', ']'] 30 =
      .ok [{ kind := .IncrementByte, operand := some 2 },
           { kind := .JumpIfZero, operand := none },
           { kind := .DecrementByte, operand := some 1 },
           { kind := .JumpIfNotZero, operand := none }] ∧
    precompute_jumps [{ kind := .IncrementByte, operand := some 2 },
           { kind := .JumpIfZero, operand := none },
           { kind := .DecrementByte, operand := some 1 },
           { kind := .JumpIfNotZero, operand := none }] = some jmLoopPair ∧
    jmLoopPair 3 = some 1 ∧
    okIp (execInst jmLoopPair { kind := .JumpIfNotZero, operand := none }
      { memory_pointer := 0, instruction_pointer := 3,
        ram := updateRam (fun _ => 0) 0 1, input := [], output := [] }) = some 2 ∧
    ((okIp (execInst jmLoopPair { kind := .JumpIfNotZero, operand := none }
      { memory_pointer := 0, instruction_pointer := 3,
        ram := updateRam (fun _ => 0) 0 1, input := [], output := [] })) == some 1)
      = false :=
  ⟨rfl, rfl, rfl, rfl, rfl⟩

/-- C5 amended: after any successfully executed non-jumping instruction
(or an untaken jump) the instruction pointer advances by one; after a
taken jump it is set to the matching bracket's address *plus one* in the
same loop iteration, so execution resumes at the instruction after the
matching bracket (the bracket itself is not re-executed). -/
theorem c5_instruction_pointer_advance (jump_map : Nat → Option Nat)
    (inst : IRInstruction) (s s2 : MachineState)
    (h : execInst jump_map inst s = .ok s2) :
    (jumpTaken inst s →
      ∃ t, jump_map s.instruction_pointer = some t ∧
        s2.instruction_pointer = t + 1) ∧
    (¬ jumpTaken inst s →
      s2.instruction_pointer = s.instruction_pointer + 1) := by
  obtain ⟨k, op⟩ := inst
  cases k with
  | JumpIfZero =>
    simp only [execInst] at h
    by_cases hmp : s.memory_pointer < RAM_SIZE
    · rw [if_pos hmp] at h
      by_cases hz : s.ram s.memory_pointer = 0
      · rw [if_pos hz] at h
        cases hjm : jump_map s.instruction_pointer with
        | none => rw [hjm] at h; exact absurd h (by simp)
        | some t =>
          rw [hjm] at h
          injection h with h2
          subst h2
          refine ⟨fun _ => ⟨t, rfl, rfl⟩, fun hnt => absurd (Or.inl ⟨rfl, hz⟩) hnt⟩
      · rw [if_neg hz] at h
        injection h with h2
        subst h2
        refine ⟨fun ht => ?_, fun _ => rfl⟩
        rcases ht with ⟨_, hz2⟩ | ⟨hk, _⟩
        · exact absurd hz2 hz
        · simp at hk
    · rw [if_neg hmp] at h; exact absurd h (by simp)
  | JumpIfNotZero =>
    simp only [execInst] at h
    by_cases hmp : s.memory_pointer < RAM_SIZE
    · rw [if_pos hmp] at h
      by_cases hz : s.ram s.memory_pointer = 0
      · rw [if_pos hz] at h
        injection h with h2
        subst h2
        refine ⟨fun ht => ?_, fun _ => rfl⟩
        rcases ht with ⟨hk, _⟩ | ⟨_, hz2⟩
        · simp at hk
        · exact absurd hz hz2
      · rw [if_neg hz] at h
        cases hjm : jump_map s.instruction_pointer with
        | none => rw [hjm] at h; exact absurd h (by simp)
        | some t =>
          rw [hjm] at h
          injection h with h2
          subst h2
          refine ⟨fun _ => ⟨t, rfl, rfl⟩, fun hnt => absurd (Or.inr ⟨rfl, hz⟩) hnt⟩
    · rw [if_neg hmp] at h; exact absurd h (by simp)
  | IncrementPointer =>
    cases op with
    | none => exact absurd h (by simp [execInst])
    | some n =>
      simp only [execInst] at h
      by_cases hb : s.memory_pointer + n ≤ USIZE_MAX
      · rw [if_pos hb] at h
        injection h with h2
        subst h2
        exact ⟨fun ht => by rcases ht with ⟨hk, _⟩ | ⟨hk, _⟩ <;> simp at hk,
               fun _ => rfl⟩
      · rw [if_neg hb] at h; exact absurd h (by simp)
  | DecrementPointer =>
    cases op with
    | none => exact absurd h (by simp [execInst])
    | some n =>
      simp only [execInst] at h
      by_cases hb : n ≤ s.memory_pointer
      · rw [if_pos hb] at h
        injection h with h2
        subst h2
        exact ⟨fun ht => by rcases ht with ⟨hk, _⟩ | ⟨hk, _⟩ <;> simp at hk,
               fun _ => rfl⟩
      · rw [if_neg hb] at h; exact absurd h (by simp)
  | IncrementByte =>
    cases op with
    | none => exact absurd h (by simp [execInst])
    | some n =>
      simp only [execInst] at h
      by_cases hmp : s.memory_pointer < RAM_SIZE
      · rw [if_pos hmp] at h
        by_cases hb : s.ram s.memory_pointer + n ≤ U8_MAX
        · rw [if_pos hb] at h
          injection h with h2
          subst h2
          exact ⟨fun ht => by rcases ht with ⟨hk, _⟩ | ⟨hk, _⟩ <;> simp at hk,
                 fun _ => rfl⟩
        · rw [if_neg hb] at h; exact absurd h (by simp)
      · rw [if_neg hmp] at h; exact absurd h (by simp)
  | DecrementByte =>
    cases op with
    | none => exact absurd h (by simp [execInst])
    | some n =>
      simp only [execInst] at h
      by_cases hmp : s.memory_pointer < RAM_SIZE
      · rw [if_pos hmp] at h
        by_cases hb : n ≤ s.ram s.memory_pointer
        · rw [if_pos hb] at h
          injection h with h2
          subst h2
          exact ⟨fun ht => by rcases ht with ⟨hk, _⟩ | ⟨hk, _⟩ <;> simp at hk,
                 fun _ => rfl⟩
        · rw [if_neg hb] at h; exact absurd h (by simp)
      · rw [if_neg hmp] at h; exact absurd h (by simp)
  | PrintByteAsChar =>
    simp only [execInst] at h
    by_cases hmp : s.memory_pointer < RAM_SIZE
    · rw [if_pos hmp] at h
      injection h with h2
      subst h2
      exact ⟨fun ht => by rcases ht with ⟨hk, _⟩ | ⟨hk, _⟩ <;> simp at hk,
             fun _ => rfl⟩
    · rw [if_neg hmp] at h; exact absurd h (by simp)
  | ReadInputToByte =>
    cases hin : s.input with
    | nil => simp [execInst, hin] at h
    | cons b rest =>
      simp only [execInst, hin] at h
      by_cases hmp : s.memory_pointer < RAM_SIZE
      · rw [if_pos hmp] at h
        injection h with h2
        subst h2
        exact ⟨fun ht => by rcases ht with ⟨hk, _⟩ | ⟨hk, _⟩ <;> simp at hk,
               fun _ => rfl⟩
      · rw [if_neg hmp] at h; exact absurd h (by simp)

/-- Witness for the amended C5 theorem at a concrete non-jumping
instruction: a single `IncrementByte(1)` from the initial state advances
the instruction pointer by one. -/
theorem c5_instruction_pointer_advance_witness :
    ({ memory_pointer := 0, instruction_pointer := 1,
       ram := updateRam (fun _ => 0) 0 (0 + 1), input := [],
       output := [] } : MachineState).instruction_pointer =
      (initState []).instruction_pointer + 1 :=
  (c5_instruction_pointer_advance jmEmpty { kind := .IncrementByte, operand := some 1 }
      (initState [])
      { memory_pointer := 0, instruction_pointer := 1,
        ram := updateRam (fun _ => 0) 0 (0 + 1), input := [], output := [] }
      rfl).2
    (by simp [jumpTaken])

/-- C8: successive calls to the lexer return exactly the characters of
the source that are recognized Brainfuck instructions, in source order,
skipping every other character; once those are exhausted every further
call returns the `'@'` sentinel (the `i`-th call returns the `i`-th
element of the filtered source, defaulting to `'@'` past its end). -/
theorem c8_lexer_token_stream (code : List Char) (i : Nat) :
    Lexer.tokenAt (Lexer.new.fill code) i =
      (code.filter is_valid_brainfuck_instruction).getD i '@' := by
  have h : Lexer.new.fill code = { position_in_code := 0, content := code } := by
    simp [Lexer.new, Lexer.fill]
  rw [h, tokenAt_spec]
  simp

/-- C10: the lexer only ever produces one of the eight recognized
instruction characters or the `'@'` sentinel, and consequently the
compiler loop's wildcard match arm is unreachable: for every source and
every fuel, compilation never ends in the `unreachableArm` marker. -/
theorem c10_lexer_valid_and_catch_all_unreachable :
    (∀ lx : Lexer, (lx.next).1 = '@' ∨ is_valid_brainfuck_instruction (lx.next).1 = true) ∧
    (∀ (code : List Char) (fuel : Nat), isUnreachableErr (load_program code fuel) = false) :=
  ⟨next_fst_valid, fun code fuel =>
    compileGo_no_unreachable fuel _ _ _ (next_fst_valid (Lexer.new.fill code))⟩

/-- C9: in every successfully compiled program, each instruction of a
collapsible kind (IncrementPointer, DecrementPointer, IncrementByte,
DecrementByte) carries operand `some n` with `n ≥ 1`, and each of the
other four kinds carries `none`; hence the executor's
`operand.unwrap()` never fails on a compiled program's instruction. -/
theorem c9_operand_invariant (code : List Char) (fuel : Nat)
    (prog : List IRInstruction) (h : load_program code fuel = .ok prog) :
    ∀ inst ∈ prog, operandOk inst = true ∧
      ∀ (jump_map : Nat → Option Nat) (s : MachineState),
        isOperandMissing (execInst jump_map inst s) = false := by
  intro inst hmem
  have hok := compileGo_operandOk fuel _ _ _ _
    (by intro i hi; exact absurd hi (List.not_mem_nil i)) h inst hmem
  exact ⟨hok, fun jump_map s => execInst_no_operandMissing inst hok jump_map s⟩

/-- Witness for C9 at the program compiled from `"+"`. -/
theorem c9_operand_invariant_witness :
    operandOk { kind := .IncrementByte, operand := some 1 } = true ∧
    isOperandMissing (execInst jmEmpty { kind := .IncrementByte, operand := some 1 }
      (initState [])) = false :=
  (c9_operand_invariant ['+'] 10 [{ kind := .IncrementByte, operand := some 1 }] rfl
      { kind := .IncrementByte, operand := some 1 } (by simp)).imp
    id (fun h2 => h2 jmEmpty (initState []))


theorem precomputeGo_inv (prog : List IRInstruction) :
    ∀ (rest : List IRInstruction) (lip : Nat) (stack : List Nat) (jm : Nat → Option Nat),
      prog.drop lip = rest →
      (∀ x ∈ stack, x < lip ∧ (∃ i, prog[x]? = some i ∧ i.kind = .JumpIfZero) ∧ jm x = none) →
      stack.Pairwise (fun a b => b < a) →
      (∀ a b, jm a = some b → jm b = some a) →
      (∀ a b, jm a = some b → a < lip ∧ b < lip ∧ Shape prog a b) →
      (∀ a i, a < lip → prog[a]? = some i → i.kind = .JumpIfNotZero → ∃ b, jm a = some b) →
      ∀ jm2, precomputeGo rest lip stack jm = some jm2 →
      (∀ a b, jm2 a = some b → jm2 b = some a) ∧
      (∀ a b, jm2 a = some b → Shape prog a b) ∧
      (∀ a i, prog[a]? = some i → i.kind = .JumpIfNotZero → ∃ b, jm2 a = some b) := by
  intro rest
  induction rest with
  | nil =>
    intro lip stack jm hdrop hS1 hS2 hM1 hM2 hM3 jm2 h
    have hjm : jm = jm2 := by
      simpa [precomputeGo] using h
    subst hjm
    have hlen : prog.length ≤ lip := List.drop_eq_nil_iff.mp hdrop
    refine ⟨hM1, fun a b hab => (hM2 a b hab).2.2, fun a i hai hk => ?_⟩
    obtain ⟨hlt, _⟩ := List.getElem?_eq_some.mp hai
    exact hM3 a i (lt_of_lt_of_le hlt hlen) hai hk
  | cons inst rest ih =>
    intro lip stack jm hdrop hS1 hS2 hM1 hM2 hM3 jm2 h
    have hinst : prog[lip]? = some inst := by
      have h0 : (prog.drop lip)[0]? = some inst := by rw [hdrop]; simp
      rw [List.getElem?_drop] at h0
      simpa using h0
    have hdrop2 : prog.drop (lip + 1) = rest := by
      rw [← List.tail_drop, hdrop]
      rfl
    obtain ⟨k, op⟩ := inst
    have hjl : jm lip = none := by
      cases hjl2 : jm lip with
      | none => rfl
      | some b => exact absurd (hM2 lip b hjl2).1 (Nat.lt_irrefl lip)
    cases k
    case JumpIfZero =>
      have h2 : precomputeGo rest (lip + 1) (lip :: stack) jm = some jm2 := h
      refine ih (lip + 1) (lip :: stack) jm hdrop2 ?_ ?_ hM1 ?_ ?_ jm2 h2
      · intro x hx
        rcases List.mem_cons.mp hx with rfl | hx
        · exact ⟨Nat.lt_succ_self x, ⟨_, hinst, rfl⟩, hjl⟩
        · obtain ⟨h1, h2, h3⟩ := hS1 x hx
          exact ⟨Nat.lt_succ_of_lt h1, h2, h3⟩
      · exact List.Pairwise.cons (fun b hb => (hS1 b hb).1) hS2
      · intro a b hab
        obtain ⟨h1, h2, h3⟩ := hM2 a b hab
        exact ⟨Nat.lt_succ_of_lt h1, Nat.lt_succ_of_lt h2, h3⟩
      · intro a i ha hai hik
        rcases Nat.lt_succ_iff_lt_or_eq.mp ha with ha | rfl
        · exact hM3 a i ha hai hik
        · rw [hinst] at hai
          injection hai with hai
          rw [← hai] at hik
          simp at hik
    case JumpIfNotZero =>
      cases stack with
      | nil => exact absurd h (by simp [precomputeGo])
      | cons target stack2 =>
        have h2 : precomputeGo rest (lip + 1) stack2
            (jmInsert (jmInsert jm lip target) target lip) = some jm2 := h
        obtain ⟨htlt, ⟨it, hit, hitk⟩, hjt⟩ := hS1 target (List.mem_cons_self target stack2)
        obtain ⟨hall, hS2'⟩ := List.pairwise_cons.mp hS2
        have hlipnet : ¬ (lip = target) := fun hh => absurd (hh ▸ htlt) (Nat.lt_irrefl lip)
        -- lookups in the doubly-inserted map
        have hlook_t : jmInsert (jmInsert jm lip target) target lip target = some lip := by
          simp [jmInsert]
        have hlook_l : jmInsert (jmInsert jm lip target) target lip lip = some target := by
          simp [jmInsert, hlipnet]
        have hlook_other : ∀ a, ¬ (a = target) → ¬ (a = lip) →
            jmInsert (jmInsert jm lip target) target lip a = jm a := by
          intro a h1 h2
          simp [jmInsert, h1, h2]
        refine ih (lip + 1) stack2 (jmInsert (jmInsert jm lip target) target lip)
          hdrop2 ?_ hS2' ?_ ?_ ?_ jm2 h2
        · intro x hx
          obtain ⟨h1, h2, h3⟩ := hS1 x (List.mem_cons_of_mem target hx)
          have hxt : ¬ (x = target) := Nat.ne_of_lt (hall x hx)
          have hxl : ¬ (x = lip) := Nat.ne_of_lt h1
          exact ⟨Nat.lt_succ_of_lt h1, h2, by rw [hlook_other x hxt hxl]; exact h3⟩
        · -- symmetry
          intro a b hab
          by_cases ha1 : a = target
          · subst ha1
            rw [hlook_t] at hab
            injection hab with hab
            subst hab
            exact hlook_l
          · by_cases ha2 : a = lip
            · subst ha2
              rw [hlook_l] at hab
              injection hab with hab
              subst hab
              exact hlook_t
            · rw [hlook_other a ha1 ha2] at hab
              have hba := hM1 a b hab
              have hbt : ¬ (b = target) := by
                intro hh
                subst hh
                rw [hjt] at hba
                exact Option.noConfusion hba
              have hbl : ¬ (b = lip) := by
                intro hh
                have hblt := (hM2 a b hab).2.1
                rw [hh] at hblt
                exact Nat.lt_irrefl lip hblt
              rw [hlook_other b hbt hbl]
              exact hba
        · -- bounds and shape
          intro a b hab
          by_cases ha1 : a = target
          · subst ha1
            rw [hlook_t] at hab
            injection hab with hab
            subst hab
            refine ⟨Nat.lt_succ_of_lt htlt, Nat.lt_succ_self _, Or.inl ⟨it, _, hit, hinst, hitk, rfl, htlt⟩⟩
          · by_cases ha2 : a = lip
            · subst ha2
              rw [hlook_l] at hab
              injection hab with hab
              subst hab
              refine ⟨Nat.lt_succ_self _, Nat.lt_succ_of_lt htlt, Or.inr ⟨_, it, hinst, hit, rfl, hitk, htlt⟩⟩
            · rw [hlook_other a ha1 ha2] at hab
              obtain ⟨h1, h2, h3⟩ := hM2 a b hab
              exact ⟨Nat.lt_succ_of_lt h1, Nat.lt_succ_of_lt h2, h3⟩
        · -- close totality
          intro a i ha hai hik
          rcases Nat.lt_succ_iff_lt_or_eq.mp ha with ha | rfl
          · obtain ⟨b, hb⟩ := hM3 a i ha hai hik
            by_cases ha1 : a = target
            · exact ⟨lip, ha1 ▸ hlook_t⟩
            · by_cases ha2 : a = lip
              · exact ⟨target, ha2 ▸ hlook_l⟩
              · exact ⟨b, by rw [hlook_other a ha1 ha2]; exact hb⟩
          · exact ⟨target, hlook_l⟩
    all_goals
        have h2 : precomputeGo rest (lip + 1) stack jm = some jm2 := h
        refine ih (lip + 1) stack jm hdrop2 ?_ hS2 hM1 ?_ ?_ jm2 h2
        · intro x hx
          obtain ⟨h1, h2, h3⟩ := hS1 x hx
          exact ⟨Nat.lt_succ_of_lt h1, h2, h3⟩
        · intro a b hab
          obtain ⟨h1, h2, h3⟩ := hM2 a b hab
          exact ⟨Nat.lt_succ_of_lt h1, Nat.lt_succ_of_lt h2, h3⟩
        · intro a i ha hai hik
          rcases Nat.lt_succ_iff_lt_or_eq.mp ha with ha | rfl
          · exact hM3 a i ha hai hik
          · rw [hinst] at hai
            injection hai with hai
            rw [← hai] at hik
            simp at hik


/-- C7 counterexample: the claim fails for programs on which the
resolver completes but that contain an unmatched `LoopOpen`.  For the
program compiled from `"+["`, `precompute_jumps` completes with an
empty jump table although address 1 holds a `JumpIfZero`: no entry maps
that `LoopOpen` to any `LoopClose`. -/
theorem c7_unmatched_open_unmapped_counterexample :
    load_program ['+', '['] 20 =
      .ok [{ kind := .IncrementByte, operand := some 1 },
           { kind := .JumpIfZero, operand := none }] ∧
    precompute_jumps [{ kind := .IncrementByte, operand := some 1 },
                      { kind := .JumpIfZero, operand := none }] = some jmEmpty ∧
    ([{ kind := .IncrementByte, operand := some 1 },
      { kind := .JumpIfZero, operand := none }] : List IRInstruction)[1]? =
      some { kind := .JumpIfZero, operand := none } ∧
    jmEmpty 1 = none :=
  ⟨rfl, rfl, rfl, rfl⟩

/-- C7 amended: for every program on which the loop resolver completes,
the jump table is symmetric, is populated only at `LoopOpen`/`LoopClose`
addresses (each mapped `LoopOpen` going to a `LoopClose` at a strictly
greater address and vice versa), and every `LoopClose` address is
mapped to an earlier `LoopOpen`; `LoopOpen` addresses, however, may be
absent from the table (the resolver never checks its leftover stack, so
unmatched opens are silently unmapped). -/
theorem c7_jump_table_invariants (prog : List IRInstruction)
    (jm : Nat → Option Nat) (h : precompute_jumps prog = some jm) :
    (∀ a b, jm a = some b → jm b = some a) ∧
    (∀ a b, jm a = some b → Shape prog a b) ∧
    (∀ a i, prog[a]? = some i → i.kind = .JumpIfNotZero → ∃ b, jm a = some b) :=
  precomputeGo_inv prog prog 0 [] jmEmpty (by simp)
    (by intro x hx; exact absurd hx (List.not_mem_nil x))
    List.Pairwise.nil
    (by intro a b hab; exact absurd hab (by simp [jmEmpty]))
    (by intro a b hab; exact absurd hab (by simp [jmEmpty]))
    (by intro a i ha; exact absurd ha (Nat.not_lt_zero a))
    jm h

/-- Witness for the amended C7 theorem: on the resolved map of
`[JumpIfZero, JumpIfNotZero]`, symmetry turns the entry `0 ↦ 1` into
the entry `1 ↦ 0`. -/
theorem c7_jump_table_invariants_witness : jmPair01 1 = some 0 :=
  (c7_jump_table_invariants
      [{ kind := .JumpIfZero, operand := none },
       { kind := .JumpIfNotZero, operand := none }] jmPair01 rfl).1 0 1 rfl


/-- C6: run-length collapsing is semantically transparent.  For every
sequence of pointer/cell operations (collapsible kinds, counts at least
1), executing the collapsed IR with the executor produces exactly the
same outcome — final memory pointer, tape, I/O streams, or the very same
fault — as executing the uncollapsed one-instruction-per-character form
(only the final instruction pointer differs, trivially, with the program
lengths; `sansIp` erases it). -/
theorem c6_collapse_transparent (ops : List (IRInstructionKind × Nat)) (jump_map : Nat → Option Nat)
    (s : MachineState)
    (hcol : ∀ p ∈ ops, collapsibleKind p.1 = true)
    (hpos : ∀ p ∈ ops, 1 ≤ p.2)
    (hip : s.instruction_pointer = 0) :
    (run (collapseOps ops) jump_map ((collapseOps ops).length + 1) s).sansIp =
    (run (expandOps ops) jump_map ((expandOps ops).length + 1) s).sansIp := by
  have hcol1 : ∀ i ∈ collapseOps ops, collapsibleKind i.kind = true := by
    intro i hi
    obtain ⟨p, hp, rfl⟩ := List.mem_map.mp hi
    exact hcol p hp
  have hcol2 : ∀ i ∈ expandOps ops, collapsibleKind i.kind = true := by
    intro i hi
    rw [expandOps_eq_collapse] at hi
    obtain ⟨p, hp, rfl⟩ := List.mem_map.mp hi
    exact (expandUnits_mem ops hcol p hp).1
  have hd1 : (collapseOps ops).drop s.instruction_pointer = collapseOps ops := by
    rw [hip]; rfl
  have hd2 : (expandOps ops).drop s.instruction_pointer = expandOps ops := by
    rw [hip]; rfl
  rw [run_straight (collapseOps ops) jump_map (collapseOps ops) s hd1 hcol1]
  rw [run_straight (expandOps ops) jump_map (expandOps ops) s hd2 hcol2]
  rw [show execSL jump_map (expandOps ops) s = execSL jump_map (collapseOps (expandUnits ops)) s
      from by rw [expandOps_eq_collapse]]
  rw [execSL_collapseOps jump_map ops s hcol]
  rw [execSL_collapseOps jump_map (expandUnits ops) s
      (fun q hq => (expandUnits_mem ops hcol q hq).1)]
  rw [← execTapeOps_expandUnits ops
      (fun p hp => ⟨hcol p hp, hpos p hp⟩)]
  cases hres : execTapeOps ops { memory_pointer := s.memory_pointer, ram := s.ram } <;>
    simp [RunResult.sansIp]


/-- Witness for C6: collapsed and expanded forms of two cell increments
agree from the initial state. -/
theorem c6_collapse_transparent_witness :
    (run (collapseOps [(IRInstructionKind.IncrementByte, 2)]) jmEmpty
        ((collapseOps [(IRInstructionKind.IncrementByte, 2)]).length + 1)
        (initState [])).sansIp =
    (run (expandOps [(IRInstructionKind.IncrementByte, 2)]) jmEmpty
        ((expandOps [(IRInstructionKind.IncrementByte, 2)]).length + 1)
        (initState [])).sansIp :=
  c6_collapse_transparent [(IRInstructionKind.IncrementByte, 2)] jmEmpty (initState [])
    (by decide) (by decide) rfl

end Sac
